import Mathlib

/-!
Verification of the sudoku solver (src/solver.py).

The board is embedded as a total function on coordinates; the Python list
mutation board.items[x][y] = v becomes the functional update setCell, and
solve, which mutates the board passed to it during forced-move propagation,
is embedded as solveS : Board -> Option Board x Board returning both the
Python return value and the final state of the caller's board object.
-/

namespace Sudoku

/-- The 9 x 9 grid of cell values; 0 denotes an empty cell
(Python class Board, field items). -/
abbrev Board : Type := Fin 9 → Fin 9 → Nat

/-- Reading items[i][j] with plain Nat indices, as the box loops do after
computing indices arithmetically; indices are always in range on a 9 x 9
board, out-of-range reads are mapped to 0. -/
def bGet (b : Board) (i j : Nat) : Nat :=
  if h : i < 9 ∧ j < 9 then b ⟨i, h.1⟩ ⟨j, h.2⟩ else 0

/-- The index list range(n_start, n_start + 3) with n_start = n // 3 * 3. -/
def boxRange (n : Nat) : List Nat := [n / 3 * 3, n / 3 * 3 + 1, n / 3 * 3 + 2]

/-- Board.yield_box: all values in the box of (x, y), skipping (x, y) itself. -/
def yield_box (b : Board) (x y : Fin 9) : List Nat :=
  (boxRange x.val).flatMap fun i =>
    (boxRange y.val).flatMap fun j =>
      if i = x.val ∧ j = y.val then [] else [bGet b i j]

/-- Board.yield_row: all values in row x, skipping column y. -/
def yield_row (b : Board) (x y : Fin 9) : List Nat :=
  (List.finRange 9).flatMap fun j => if j = y then [] else [b x j]

/-- Board.yield_column: all values in column y, skipping row x. -/
def yield_column (b : Board) (x y : Fin 9) : List Nat :=
  (List.finRange 9).flatMap fun i => if i = x then [] else [b i y]

/-- Board._all_others: box, then row, then column peers of (x, y). -/
def all_others (b : Board) (x y : Fin 9) : List Nat :=
  yield_box b x y ++ yield_row b x y ++ yield_column b x y

/-- The set named other in Board.find_all_possible: the non-zero values among
the peers (kept as a list; only membership is ever used). -/
def others (b : Board) (x y : Fin 9) : List Nat :=
  (all_others b x y).filter fun v => decide (v ≠ 0)

/-- Board.find_all_possible: the values in range(1, 10) not present among the
non-zero peer values, in increasing order (the order Python yields them). -/
def find_all_possible (b : Board) (x y : Fin 9) : List Nat :=
  [1, 2, 3, 4, 5, 6, 7, 8, 9].filter fun v => decide (v ∉ others b x y)

/-- One scan of Board.is_valid: walk the values, skip zeros, return False on
the first value already seen, else accumulate it. -/
def scanOk : List Nat → List Nat → Bool
  | _, [] => true
  | s, v :: vs =>
    if v = 0 then scanOk s vs
    else if v ∈ s then false
    else scanOk (v :: s) vs

/-- Row x of the board as a list (Python: self.items[x]). -/
def rowItems (b : Board) (x : Fin 9) : List Nat :=
  (List.finRange 9).map fun j => b x j

/-- The nine values items[i+k][j+l] for k, l in range(3), in the order the
box loop of Board.is_valid visits them. -/
def boxItems (b : Board) (i j : Nat) : List Nat :=
  (List.range 3).flatMap fun k => (List.range 3).map fun l => bGet b (i + k) (j + l)

/-- The box corner pairs (i, j) for i in range(0, 9, 3) and j in
range(0, 9, 3), in loop order. -/
def boxStarts : List (Nat × Nat) :=
  ([0, 3, 6] : List Nat).flatMap fun i => ([0, 3, 6] : List Nat).map fun j => (i, j)

/-- Board.is_valid: three sequential scans.  The first scans each row.  The
second is written in the source as for x in range(9): for y in range(9):
item = self.items[x][y] - indexing row-major, so it scans each row a second
time rather than the columns.  The third scans the nine 3 x 3 boxes. -/
def is_valid (b : Board) : Bool :=
  ((List.finRange 9).all fun x => scanOk [] (rowItems b x)) &&
  ((List.finRange 9).all fun x => scanOk [] ((List.finRange 9).map fun y => b x y)) &&
  (boxStarts.all fun p => scanOk [] (boxItems b p.1 p.2))

/-- The single-cell mutation board.items[x][y] = v. -/
def setCell (b : Board) (x y : Fin 9) (v : Nat) : Board :=
  fun i j => if i = x ∧ j = y then v else b i j

/-- The scan at the top of solve's loop: list_of_possibles, the pair
((x, y), find_all_possible(x, y)) for every empty cell in row-major order. -/
def scanBoard (b : Board) : List ((Fin 9 × Fin 9) × List Nat) :=
  (List.finRange 9).flatMap fun x =>
    (List.finRange 9).flatMap fun y =>
      if b x y = 0 then [((x, y), find_all_possible b x y)] else []

/-- The singles of solve's scan: the entries of list_of_possibles whose
possibility list has exactly one element. -/
def singlesOf (b : Board) : List ((Fin 9 × Fin 9) × List Nat) :=
  (scanBoard b).filter fun e => decide (e.2.length = 1)

/-- The singles loop of solve: assign each single its first possible value
(all_possible[0]), and after every assignment call is_valid; a failed check
stops the loop and reports failure.  Returns the board state reached and
whether the loop ran to completion. -/
def runSingles : Board → List ((Fin 9 × Fin 9) × List Nat) → Board × Bool
  | b, [] => (b, true)
  | b, (c, ps) :: rest =>
    if is_valid (setCell b c.1 c.2 (ps.headD 0)) then
      runSingles (setCell b c.1 c.2 (ps.headD 0)) rest
    else (setCell b c.1 c.2 (ps.headD 0), false)

/-- The number of empty cells of the board (the measure that shrinks with
every assignment solve performs). -/
def numEmpty (b : Board) : Nat :=
  (Finset.univ.filter fun p : Fin 9 × Fin 9 => b p.1 p.2 = 0).card

theorem numEmpty_le_81 (b : Board) : numEmpty b ≤ 81 := by
  unfold numEmpty
  refine le_trans (Finset.card_filter_le _ _) ?_
  simp

theorem mem_scanBoard {b : Board} {e : (Fin 9 × Fin 9) × List Nat} :
    e ∈ scanBoard b ↔ b e.1.1 e.1.2 = 0 ∧ e.2 = find_all_possible b e.1.1 e.1.2 := by
  obtain ⟨⟨x, y⟩, ps⟩ := e
  unfold scanBoard
  simp only [List.mem_flatMap, List.mem_finRange, true_and]
  constructor
  · rintro ⟨i, j, hij⟩
    by_cases h : b i j = 0
    · rw [if_pos h] at hij
      simp only [List.mem_singleton, Prod.mk.injEq] at hij
      obtain ⟨⟨rfl, rfl⟩, rfl⟩ := hij
      exact ⟨h, rfl⟩
    · rw [if_neg h] at hij
      exact absurd hij (List.not_mem_nil _)
  · rintro ⟨h0, rfl⟩
    exact ⟨x, y, by rw [if_pos h0]; exact List.mem_singleton_self _⟩

theorem scanBoard_eq_nil {b : Board} : scanBoard b = [] ↔ ∀ x y, b x y ≠ 0 := by
  rw [List.eq_nil_iff_forall_not_mem]
  constructor
  · intro h x y hxy
    exact h ((x, y), find_all_possible b x y) (mem_scanBoard.2 ⟨hxy, rfl⟩)
  · intro h e he
    exact h e.1.1 e.1.2 (mem_scanBoard.1 he).1

theorem find_all_possible_pos {b : Board} {x y : Fin 9} {v : Nat}
    (h : v ∈ find_all_possible b x y) : 1 ≤ v ∧ v ≤ 9 := by
  unfold find_all_possible at h
  rcases List.mem_filter.1 h with ⟨hm, _⟩
  simp only [List.mem_cons, List.not_mem_nil, or_false] at hm
  rcases hm with rfl | rfl | rfl | rfl | rfl | rfl | rfl | rfl | rfl <;> omega

theorem find_all_possible_length {b : Board} {x y : Fin 9} :
    (find_all_possible b x y).length ≤ 9 := by
  unfold find_all_possible
  exact le_trans (List.length_filter_le _ _) (by simp)

theorem setCell_self {b : Board} {x y : Fin 9} {v : Nat} : setCell b x y v x y = v := by
  simp [setCell]

theorem setCell_other {b : Board} {x y i j : Fin 9} {v : Nat} (h : ¬(i = x ∧ j = y)) :
    setCell b x y v i j = b i j := by
  simp only [setCell, if_neg h]

theorem setCell_at {b : Board} {x y i j : Fin 9} {v : Nat} (h : i = x ∧ j = y) :
    setCell b x y v i j = v := by
  simp only [setCell, if_pos h]

theorem numEmpty_setCell_le {b : Board} {x y : Fin 9} {v : Nat} (hv : v ≠ 0) :
    numEmpty (setCell b x y v) ≤ numEmpty b := by
  apply Finset.card_le_card
  intro p hp
  simp only [Finset.mem_filter, Finset.mem_univ, true_and] at hp ⊢
  by_cases h : p.1 = x ∧ p.2 = y
  · rw [setCell, if_pos h] at hp
    exact absurd hp hv
  · rwa [setCell_other h] at hp

theorem numEmpty_setCell_lt {b : Board} {x y : Fin 9} {v : Nat}
    (h0 : b x y = 0) (hv : v ≠ 0) : numEmpty (setCell b x y v) < numEmpty b := by
  apply Finset.card_lt_card
  rw [Finset.ssubset_iff_of_subset]
  · refine ⟨(x, y), ?_, ?_⟩
    · simp [h0]
    · simp [setCell_self, hv]
  · intro p hp
    simp only [Finset.mem_filter, Finset.mem_univ, true_and] at hp ⊢
    by_cases h : p.1 = x ∧ p.2 = y
    · rw [setCell, if_pos h] at hp
      exact absurd hp hv
    · rwa [setCell_other h] at hp

theorem runSingles_numEmpty_le :
    ∀ (ss : List ((Fin 9 × Fin 9) × List Nat)) (b : Board),
      (∀ e ∈ ss, e.2.headD 0 ≠ 0) → numEmpty (runSingles b ss).1 ≤ numEmpty b := by
  intro ss
  induction ss with
  | nil => intro b _; simp [runSingles]
  | cons e rest ih =>
    intro b h
    obtain ⟨c, ps⟩ := e
    have hv : ps.headD 0 ≠ 0 := h _ (List.mem_cons_self _ _)
    simp only [runSingles]
    split
    · exact le_trans (ih _ fun e he => h e (List.mem_cons_of_mem _ he))
        (numEmpty_setCell_le hv)
    · exact numEmpty_setCell_le hv

theorem runSingles_numEmpty_lt {b : Board} {ss : List ((Fin 9 × Fin 9) × List Nat)}
    (hne : ss ≠ []) (hv : ∀ e ∈ ss, e.2.headD 0 ≠ 0)
    (h0 : ∀ e ∈ ss, b e.1.1 e.1.2 = 0) :
    numEmpty (runSingles b ss).1 < numEmpty b := by
  cases ss with
  | nil => exact absurd rfl hne
  | cons e rest =>
    obtain ⟨c, ps⟩ := e
    have hlt : numEmpty (setCell b c.1 c.2 (ps.headD 0)) < numEmpty b :=
      numEmpty_setCell_lt (h0 _ (List.mem_cons_self _ _)) (hv _ (List.mem_cons_self _ _))
    simp only [runSingles]
    split
    · exact lt_of_le_of_lt
        (runSingles_numEmpty_le rest _ fun e he => hv e (List.mem_cons_of_mem _ he)) hlt
    · exact hlt

theorem singlesOf_cell_empty {b : Board} {e : (Fin 9 × Fin 9) × List Nat}
    (he : e ∈ singlesOf b) : b e.1.1 e.1.2 = 0 :=
  (mem_scanBoard.1 (List.mem_filter.1 he).1).1

theorem singlesOf_headD_ne {b : Board} {e : (Fin 9 × Fin 9) × List Nat}
    (he : e ∈ singlesOf b) : e.2.headD 0 ≠ 0 := by
  rcases List.mem_filter.1 he with ⟨hm, hlen⟩
  have hlen1 : e.2.length = 1 := of_decide_eq_true hlen
  have hfap := (mem_scanBoard.1 hm).2
  cases h2 : e.2 with
  | nil => rw [h2] at hlen1; simp at hlen1
  | cons w ws =>
    have hw : w ∈ find_all_possible b e.1.1 e.1.2 := by
      rw [← hfap, h2]; exact List.mem_cons_self _ _
    have := (find_all_possible_pos hw).1
    simp only [h2, List.headD_cons]
    omega

theorem scan_head_cell_empty {b : Board} (h : scanBoard b ≠ []) :
    b ((scanBoard b).head h).1.1 ((scanBoard b).head h).1.2 = 0 :=
  (mem_scanBoard.1 (List.head_mem h)).1

theorem scan_head_pos {b : Board} (h : scanBoard b ≠ []) :
    ∀ v ∈ ((scanBoard b).head h).2, 1 ≤ v := by
  intro v hv
  rw [(mem_scanBoard.1 (List.head_mem h)).2] at hv
  exact (find_all_possible_pos hv).1

theorem scan_head_len {b : Board} (h : scanBoard b ≠ []) :
    ((scanBoard b).head h).2.length ≤ 9 := by
  rw [(mem_scanBoard.1 (List.head_mem h)).2]
  exact find_all_possible_length

mutual

/-- The function solve, with the mutation it performs on the board object
passed by the caller made explicit: solveS b = (r, b2) where r is what the
Python call solve(board) returns (None becomes none) and b2 is the state of
the caller's board object when the call returns.  The while-loop is the
self-call in the singles branch (which mutates the caller's board); the
branching search clones the board, so it leaves the caller's board at b. -/
def solveS (b : Board) : Option Board × Board :=
  if (scanBoard b).any (fun e => e.2.isEmpty) then (none, b)
  else if h2 : scanBoard b = [] then (some b, b)
  else if hs : singlesOf b = [] then
    (tryCands b ((scanBoard b).head h2).1 (scan_head_cell_empty h2)
      ((scanBoard b).head h2).2 (scan_head_pos h2), b)
  else if (runSingles b (singlesOf b)).2 then solveS (runSingles b (singlesOf b)).1
  else (none, (runSingles b (singlesOf b)).1)
termination_by (numEmpty b, 100)
decreasing_by
  · exact Prod.Lex.right _ (lt_of_le_of_lt (scan_head_len h2) (by omega))
  · exact Prod.Lex.left _ _ (runSingles_numEmpty_lt hs
      (fun e he => singlesOf_headD_ne he) (fun e he => singlesOf_cell_empty he))

/-- The candidate loop at the bottom of solve: for each value i of the first
empty slot's possibility list, deep-copy the board, assign i, recurse, and
return the first non-None result; None when the list is exhausted.  The two
propositional arguments record that the slot is empty and every candidate is
a digit (facts the scan guarantees); they only serve the termination proof. -/
def tryCands (b : Board) (c : Fin 9 × Fin 9) (hc : b c.1 c.2 = 0) :
    (ps : List Nat) → (∀ v ∈ ps, 1 ≤ v) → Option Board
  | [], _ => none
  | i :: rest, hp =>
    match solveS (setCell b c.1 c.2 i) with
    | (some g, _) => some g
    | (none, _) => tryCands b c hc rest fun v hv => hp v (List.mem_cons_of_mem i hv)
termination_by ps _ => (numEmpty b, ps.length)
decreasing_by
  · exact Prod.Lex.left _ _ (numEmpty_setCell_lt hc
      (by have := hp i (List.mem_cons_self i rest); omega))
  · exact Prod.Lex.right _ (Nat.lt_succ_self _)

end

/-- The return value of solve(board): some solution grid, or none. -/
def solve (b : Board) : Option Board := (solveS b).1

/-- The peer relation of the specification: (i, j) is another cell sharing
the row, the column, or the 3 x 3 box of (x, y). -/
def isPeer (x y i j : Fin 9) : Prop :=
  ¬(i = x ∧ j = y) ∧
    (i = x ∨ j = y ∨ (i.val / 3 = x.val / 3 ∧ j.val / 3 = y.val / 3))

instance (x y i j : Fin 9) : Decidable (isPeer x y i j) := by
  unfold isPeer
  infer_instance

theorem mem_boxRange {m n : Nat} (hn : n < 9) :
    m ∈ boxRange n ↔ (m / 3 = n / 3 ∧ m < 9) := by
  unfold boxRange
  simp only [List.mem_cons, List.not_mem_nil, or_false]
  omega

theorem mem_yield_box {b : Board} {x y : Fin 9} {v : Nat} :
    v ∈ yield_box b x y ↔ ∃ i j : Fin 9,
      (¬(i = x ∧ j = y) ∧ i.val / 3 = x.val / 3 ∧ j.val / 3 = y.val / 3) ∧ b i j = v := by
  unfold yield_box
  simp only [List.mem_flatMap, mem_boxRange x.isLt, mem_boxRange y.isLt]
  constructor
  · rintro ⟨i, ⟨hi3, hi9⟩, j, ⟨hj3, hj9⟩, hv⟩
    split at hv
    · exact absurd hv (List.not_mem_nil _)
    · rename_i h
      simp only [List.mem_singleton] at hv
      subst hv
      refine ⟨⟨i, hi9⟩, ⟨j, hj9⟩, ⟨?_, hi3, hj3⟩, ?_⟩
      · rintro ⟨h1, h2⟩
        exact h ⟨congrArg Fin.val h1, congrArg Fin.val h2⟩
      · unfold bGet
        rw [dif_pos ⟨hi9, hj9⟩]
  · rintro ⟨i, j, ⟨hne, hi3, hj3⟩, hv⟩
    refine ⟨i.val, ⟨hi3, i.isLt⟩, j.val, ⟨hj3, j.isLt⟩, ?_⟩
    rw [if_neg ?_]
    · simp only [List.mem_singleton]
      rw [← hv]
      unfold bGet
      rw [dif_pos ⟨i.isLt, j.isLt⟩]
    · rintro ⟨h1, h2⟩
      exact hne ⟨Fin.ext h1, Fin.ext h2⟩

theorem mem_yield_row {b : Board} {x y : Fin 9} {v : Nat} :
    v ∈ yield_row b x y ↔ ∃ j : Fin 9, j ≠ y ∧ b x j = v := by
  unfold yield_row
  simp only [List.mem_flatMap, List.mem_finRange, true_and]
  constructor
  · rintro ⟨j, hj⟩
    split at hj
    · exact absurd hj (List.not_mem_nil _)
    · rename_i h
      simp only [List.mem_singleton] at hj
      exact ⟨j, h, hj.symm⟩
  · rintro ⟨j, hne, hv⟩
    exact ⟨j, by rw [if_neg hne]; exact List.mem_singleton.2 hv.symm⟩

theorem mem_yield_column {b : Board} {x y : Fin 9} {v : Nat} :
    v ∈ yield_column b x y ↔ ∃ i : Fin 9, i ≠ x ∧ b i y = v := by
  unfold yield_column
  simp only [List.mem_flatMap, List.mem_finRange, true_and]
  constructor
  · rintro ⟨i, hi⟩
    split at hi
    · exact absurd hi (List.not_mem_nil _)
    · rename_i h
      simp only [List.mem_singleton] at hi
      exact ⟨i, h, hi.symm⟩
  · rintro ⟨i, hne, hv⟩
    exact ⟨i, by rw [if_neg hne]; exact List.mem_singleton.2 hv.symm⟩

/-- The peer values collected by Board._all_others are exactly the values of
the peer cells. -/
theorem mem_all_others {b : Board} {x y : Fin 9} {v : Nat} :
    v ∈ all_others b x y ↔ ∃ i j : Fin 9, isPeer x y i j ∧ b i j = v := by
  unfold all_others
  simp only [List.mem_append, mem_yield_box, mem_yield_row, mem_yield_column]
  constructor
  · rintro ((⟨i, j, ⟨hne, hb⟩, hv⟩ | ⟨j, hne, hv⟩) | ⟨i, hne, hv⟩)
    · exact ⟨i, j, ⟨hne, Or.inr (Or.inr hb)⟩, hv⟩
    · exact ⟨x, j, ⟨fun hh => hne hh.2, Or.inl rfl⟩, hv⟩
    · exact ⟨i, y, ⟨fun hh => hne hh.1, Or.inr (Or.inl rfl)⟩, hv⟩
  · rintro ⟨i, j, ⟨hne, hgr⟩, hv⟩
    rcases hgr with rfl | rfl | hb
    · exact Or.inl (Or.inr ⟨j, fun hj => hne ⟨rfl, hj⟩, hv⟩)
    · exact Or.inr ⟨i, fun hi => hne ⟨hi, rfl⟩, hv⟩
    · exact Or.inl (Or.inl ⟨i, j, ⟨hne, hb⟩, hv⟩)

/-- Characterization of Board.find_all_possible: exactly the digits 1..9 not
taken by any non-zero peer (a value equal to a peer's value is automatically
non-zero, being at least 1). -/
theorem find_all_possible_iff {b : Board} {x y : Fin 9} {v : Nat} :
    v ∈ find_all_possible b x y ↔
      (1 ≤ v ∧ v ≤ 9) ∧ ¬∃ i j : Fin 9, isPeer x y i j ∧ b i j = v := by
  unfold find_all_possible
  rw [List.mem_filter]
  constructor
  · rintro ⟨hm, hno⟩
    have hno2 : v ∉ others b x y := of_decide_eq_true hno
    simp only [List.mem_cons, List.not_mem_nil, or_false] at hm
    have hv9 : 1 ≤ v ∧ v ≤ 9 := by omega
    refine ⟨hv9, ?_⟩
    rintro ⟨i, j, hpeer, hbv⟩
    apply hno2
    unfold others
    rw [List.mem_filter]
    exact ⟨mem_all_others.2 ⟨i, j, hpeer, hbv⟩,
      decide_eq_true (by omega : v ≠ 0)⟩
  · rintro ⟨⟨h1, h9⟩, hnp⟩
    refine ⟨?_, ?_⟩
    · simp only [List.mem_cons, List.not_mem_nil, or_false]
      omega
    · apply decide_eq_true
      intro hmem
      unfold others at hmem
      rcases List.mem_filter.1 hmem with ⟨hall, _⟩
      exact hnp (mem_all_others.1 hall)

/-- One scan of is_valid succeeds iff no earlier non-zero value reappears
later, and no non-zero value of the list is already in the accumulator. -/
theorem scanOk_iff : ∀ (l s : List Nat),
    scanOk s l = true ↔
      (List.Pairwise (fun a c => a ≠ 0 → a ≠ c) l ∧ ∀ v ∈ l, v ≠ 0 → v ∉ s)
  | [], s => by simp [scanOk]
  | v :: vs, s => by
    simp only [scanOk]
    by_cases hv : v = 0
    · rw [if_pos hv, scanOk_iff vs s]
      subst hv
      constructor
      · rintro ⟨hp, hm⟩
        refine ⟨List.pairwise_cons.2 ⟨fun c _ h0 => absurd rfl h0, hp⟩, ?_⟩
        intro w hw h0
        rcases List.mem_cons.1 hw with rfl | hw2
        · exact absurd rfl h0
        · exact hm w hw2 h0
      · rintro ⟨hp, hm⟩
        exact ⟨(List.pairwise_cons.1 hp).2,
          fun w hw h0 => hm w (List.mem_cons_of_mem _ hw) h0⟩
    · rw [if_neg hv]
      by_cases hs : v ∈ s
      · rw [if_pos hs]
        simp only [Bool.false_eq_true, false_iff, not_and]
        intro _ hm
        exact absurd hs (hm v (List.mem_cons_self _ _) hv)
      · rw [if_neg hs, scanOk_iff vs (v :: s)]
        constructor
        · rintro ⟨hp, hm⟩
          refine ⟨List.pairwise_cons.2 ⟨?_, hp⟩, ?_⟩
          · intro c hc _
            by_cases hc0 : c = 0
            · subst hc0; exact hv
            · intro hvc
              exact hm c hc hc0 (by rw [← hvc]; exact List.mem_cons_self _ _)
          · intro w hw h0
            rcases List.mem_cons.1 hw with rfl | hw2
            · exact hs
            · intro hws
              exact hm w hw2 h0 (List.mem_cons_of_mem _ hws)
        · rintro ⟨hp, hm⟩
          rcases List.pairwise_cons.1 hp with ⟨hhead, htail⟩
          refine ⟨htail, ?_⟩
          intro w hw h0
          rw [List.mem_cons]
          rintro (rfl | hws)
          · exact hhead w hw hv rfl
          · exact hm w (List.mem_cons_of_mem _ hw) h0 hws

/-- Bridging lemma: the pairwise no-repeat condition on a list of values
drawn through f from a duplicate-free index list is the same as the
unordered two-index condition. -/
theorem pairwise_map_iff {α : Type} {idx : List α} (hnd : idx.Nodup) (f : α → Nat) :
    (idx.map f).Pairwise (fun a c => a ≠ 0 → a ≠ c) ↔
      ∀ p ∈ idx, ∀ q ∈ idx, p ≠ q → f p ≠ 0 → f p ≠ f q := by
  rw [List.pairwise_map]
  constructor
  · intro hp p hpm q hqm hpq h0
    obtain ⟨ip, hip⟩ := List.mem_iff_get.1 hpm
    obtain ⟨iq, hiq⟩ := List.mem_iff_get.1 hqm
    have hne : ip ≠ iq := fun h => hpq (by rw [← hip, ← hiq, h])
    rw [List.pairwise_iff_get] at hp
    rcases lt_or_gt_of_ne hne with hlt | hgt
    · have := hp ip iq hlt
      rw [hip, hiq] at this
      exact this h0
    · have := hp iq ip hgt
      rw [hip, hiq] at this
      by_cases hq0 : f q = 0
      · rw [hq0]; exact h0
      · exact fun heq => this hq0 heq.symm
  · intro h
    rw [List.pairwise_iff_get]
    intro i j hij
    have hne : idx.get i ≠ idx.get j := by
      intro heq
      exact absurd ((hnd.get_inj_iff).1 heq) (Fin.ne_of_lt hij)
    exact h _ (idx.get_mem _ _) _ (idx.get_mem _ _) hne

/-- A non-zero value occurring at two different cells of one row. -/
def rowRepeat (b : Board) : Prop :=
  ∃ (x j j2 : Fin 9), j ≠ j2 ∧ b x j ≠ 0 ∧ b x j = b x j2

/-- A non-zero value occurring at two different cells of one column. -/
def colRepeat (b : Board) : Prop :=
  ∃ (y i i2 : Fin 9), i ≠ i2 ∧ b i y ≠ 0 ∧ b i y = b i2 y

/-- A non-zero value occurring at two different cells of one 3 x 3 box. -/
def boxRepeat (b : Board) : Prop :=
  ∃ p q : Fin 9 × Fin 9, p ≠ q ∧ p.1.val / 3 = q.1.val / 3 ∧ p.2.val / 3 = q.2.val / 3 ∧
    b p.1 p.2 ≠ 0 ∧ b p.1 p.2 = b q.1 q.2

theorem rowOk_iff {b : Board} {x : Fin 9} :
    scanOk [] (rowItems b x) = true ↔
      ∀ j j2 : Fin 9, j ≠ j2 → b x j ≠ 0 → b x j ≠ b x j2 := by
  rw [scanOk_iff]
  have hmem : ∀ v ∈ rowItems b x, v ≠ 0 → v ∉ ([] : List Nat) := by
    intro v _ _
    exact List.not_mem_nil v
  rw [and_iff_left hmem]
  unfold rowItems
  rw [pairwise_map_iff (List.nodup_finRange 9)]
  constructor
  · intro h j j2 hne
    exact h j (List.mem_finRange j) j2 (List.mem_finRange j2) hne
  · intro h p _ q _ hpq
    exact h p q hpq

theorem rowAll_iff {b : Board} :
    ((List.finRange 9).all fun x => scanOk [] (rowItems b x)) = true ↔ ¬rowRepeat b := by
  rw [List.all_eq_true]
  constructor
  · intro h
    rintro ⟨x, j, j2, hne, h0, heq⟩
    exact rowOk_iff.1 (h x (List.mem_finRange x)) j j2 hne h0 heq
  · intro h x _
    rw [rowOk_iff]
    intro j j2 hne h0 heq
    exact h ⟨x, j, j2, hne, h0, heq⟩

/-- The (k, l) offset pairs the box scan of is_valid visits, in order. -/
def boxIdx : List (Nat × Nat) :=
  [(0, 0), (0, 1), (0, 2), (1, 0), (1, 1), (1, 2), (2, 0), (2, 1), (2, 2)]

theorem boxItems_eq (b : Board) (i j : Nat) :
    boxItems b i j = boxIdx.map fun p => bGet b (i + p.1) (j + p.2) := rfl

theorem mem_boxIdx {p : Nat × Nat} : p ∈ boxIdx ↔ p.1 < 3 ∧ p.2 < 3 := by
  obtain ⟨k, l⟩ := p
  simp only [boxIdx, List.mem_cons, List.not_mem_nil, or_false, Prod.mk.injEq]
  omega

theorem mem_boxStarts {s : Nat × Nat} :
    s ∈ boxStarts ↔ (s.1 = 0 ∨ s.1 = 3 ∨ s.1 = 6) ∧ (s.2 = 0 ∨ s.2 = 3 ∨ s.2 = 6) := by
  obtain ⟨i, j⟩ := s
  have hb : boxStarts =
      [(0, 0), (0, 3), (0, 6), (3, 0), (3, 3), (3, 6), (6, 0), (6, 3), (6, 6)] := rfl
  simp only [hb, List.mem_cons, List.not_mem_nil, or_false, Prod.mk.injEq]
  omega

theorem bGet_lt {b : Board} {i j : Nat} (hi : i < 9) (hj : j < 9) :
    bGet b i j = b ⟨i, hi⟩ ⟨j, hj⟩ := by
  unfold bGet
  rw [dif_pos ⟨hi, hj⟩]

/-- The scan of the box with corner (i, j) succeeds iff no two distinct
cells of that box hold equal non-zero values. -/
theorem boxScan_iff {b : Board} {i j : Nat}
    (hi : i = 0 ∨ i = 3 ∨ i = 6) (hj : j = 0 ∨ j = 3 ∨ j = 6) :
    scanOk [] (boxItems b i j) = true ↔
      ∀ p q : Fin 9 × Fin 9, p ≠ q →
        p.1.val / 3 * 3 = i → p.2.val / 3 * 3 = j →
        q.1.val / 3 * 3 = i → q.2.val / 3 * 3 = j →
        b p.1 p.2 ≠ 0 → b p.1 p.2 ≠ b q.1 q.2 := by
  rw [boxItems_eq, scanOk_iff]
  have hmem : ∀ v ∈ boxIdx.map fun p => bGet b (i + p.1) (j + p.2),
      v ≠ 0 → v ∉ ([] : List Nat) := by
    intro v _ _
    exact List.not_mem_nil v
  rw [and_iff_left hmem, pairwise_map_iff (by decide : boxIdx.Nodup)]
  constructor
  · intro h P Q hne hP1 hP2 hQ1 hQ2 h0
    have hp1 := P.1.isLt
    have hp2 := P.2.isLt
    have hq1 := Q.1.isLt
    have hq2 := Q.2.isLt
    have hmp : ((P.1.val % 3 : Nat), (P.2.val % 3 : Nat)) ∈ boxIdx := by
      rw [mem_boxIdx]; constructor <;> omega
    have hmq : ((Q.1.val % 3 : Nat), (Q.2.val % 3 : Nat)) ∈ boxIdx := by
      rw [mem_boxIdx]; constructor <;> omega
    have hpq : ((P.1.val % 3 : Nat), (P.2.val % 3 : Nat)) ≠
        ((Q.1.val % 3 : Nat), (Q.2.val % 3 : Nat)) := by
      intro heq
      rw [Prod.mk.injEq] at heq
      apply hne
      rw [Prod.ext_iff, Fin.ext_iff, Fin.ext_iff]
      constructor <;> omega
    have := h _ hmp _ hmq hpq
    simp only at this
    have e1 : i + P.1.val % 3 = P.1.val := by omega
    have e2 : j + P.2.val % 3 = P.2.val := by omega
    have e3 : i + Q.1.val % 3 = Q.1.val := by omega
    have e4 : j + Q.2.val % 3 = Q.2.val := by omega
    rw [e1, e2, e3, e4, bGet_lt hp1 hp2, bGet_lt hq1 hq2] at this
    simp only [Fin.eta] at this
    exact this h0
  · intro h p hp q hq hne h0
    rw [mem_boxIdx] at hp hq
    have hip : i + p.1 < 9 := by omega
    have hjp : j + p.2 < 9 := by omega
    have hiq : i + q.1 < 9 := by omega
    have hjq : j + q.2 < 9 := by omega
    have hPQ : ((⟨i + p.1, hip⟩ : Fin 9), (⟨j + p.2, hjp⟩ : Fin 9)) ≠
        ((⟨i + q.1, hiq⟩ : Fin 9), (⟨j + q.2, hjq⟩ : Fin 9)) := by
      intro heq
      rw [Prod.ext_iff, Fin.ext_iff, Fin.ext_iff] at heq
      simp only at heq
      apply hne
      rw [Prod.ext_iff]
      constructor <;> omega
    have := h _ _ hPQ (by simp only; omega) (by simp only; omega)
      (by simp only; omega) (by simp only; omega)
    rw [bGet_lt hip hjp] at h0
    rw [bGet_lt hip hjp, bGet_lt hiq hjq]
    exact this h0

/-- The box loop of is_valid succeeds iff no box holds a repeated non-zero
value. -/
theorem boxAll_iff {b : Board} :
    (boxStarts.all fun p => scanOk [] (boxItems b p.1 p.2)) = true ↔ ¬boxRepeat b := by
  rw [List.all_eq_true]
  constructor
  · intro h
    rintro ⟨P, Q, hne, hb1, hb2, h0, heq⟩
    have h1 := P.1.isLt
    have h2 := P.2.isLt
    have hstart : ((P.1.val / 3 * 3 : Nat), (P.2.val / 3 * 3 : Nat)) ∈ boxStarts := by
      rw [mem_boxStarts]
      constructor <;> omega
    have hscan := h _ hstart
    rw [boxScan_iff (by omega) (by omega)] at hscan
    exact hscan P Q hne rfl rfl (by omega) (by omega) h0 heq
  · intro h s hs
    rw [mem_boxStarts] at hs
    rw [boxScan_iff hs.1 hs.2]
    intro P Q hne hP1 hP2 hQ1 hQ2 h0 heq
    exact h ⟨P, Q, hne, by omega, by omega, h0, heq⟩

/-- Board.is_valid succeeds iff no row and no box holds a repeated non-zero
value.  Columns do not appear: the second loop of is_valid rescans the rows
(it reads items[x][y] with x as the outer index), so a duplicate confined to
a column is never detected. -/
theorem is_valid_iff {b : Board} : is_valid b = true ↔ ¬rowRepeat b ∧ ¬boxRepeat b := by
  unfold is_valid
  rw [Bool.and_eq_true, Bool.and_eq_true]
  constructor
  · rintro ⟨⟨h1, _⟩, h3⟩
    exact ⟨rowAll_iff.1 h1, boxAll_iff.1 h3⟩
  · rintro ⟨h1, h3⟩
    exact ⟨⟨rowAll_iff.2 h1, rowAll_iff.2 h1⟩, boxAll_iff.2 h3⟩

/-- The specification's consistency violation: at least one of the 27
constraint groups (9 rows, 9 columns, 9 boxes) holds a repeated non-zero
value. -/
def groupRepeat (b : Board) : Prop := rowRepeat b ∨ colRepeat b ∨ boxRepeat b

instance (b : Board) : Decidable (rowRepeat b) := by
  unfold rowRepeat; infer_instance

instance (b : Board) : Decidable (colRepeat b) := by
  unfold colRepeat; infer_instance

instance (b : Board) : Decidable (boxRepeat b) := by
  unfold boxRepeat; infer_instance

instance (b : Board) : Decidable (groupRepeat b) := by
  unfold groupRepeat; infer_instance

/-- Assigning to an empty cell a value legal there keeps is_valid true. -/
theorem is_valid_setCell {b : Board} {x y : Fin 9} {v : Nat}
    (hb : is_valid b = true) (hv : v ∈ find_all_possible b x y) :
    is_valid (setCell b x y v) = true := by
  rcases is_valid_iff.1 hb with ⟨hrow, hbox⟩
  rcases find_all_possible_iff.1 hv with ⟨⟨h1, _⟩, hnp⟩
  rw [is_valid_iff]
  constructor
  · rintro ⟨r, j, j2, hne, h0, heq⟩
    by_cases hj : r = x ∧ j = y
    · rw [setCell_at hj] at h0 heq
      have hne2 : ¬(r = x ∧ j2 = y) := fun hh => hne (hj.2.trans hh.2.symm)
      rw [setCell_other hne2] at heq
      exact hnp ⟨r, j2, ⟨hne2, Or.inl hj.1⟩, heq.symm⟩
    · by_cases hj2 : r = x ∧ j2 = y
      · rw [setCell_other hj] at h0 heq
        rw [setCell_at hj2] at heq
        exact hnp ⟨r, j, ⟨hj, Or.inl hj2.1⟩, heq⟩
      · rw [setCell_other hj] at h0 heq
        rw [setCell_other hj2] at heq
        exact hrow ⟨r, j, j2, hne, h0, heq⟩
  · rintro ⟨P, Q, hne, hb1, hb2, h0, heq⟩
    by_cases hP : P.1 = x ∧ P.2 = y
    · have hQ : ¬(Q.1 = x ∧ Q.2 = y) := by
        rintro ⟨hq1, hq2⟩
        exact hne (Prod.ext (hP.1.trans hq1.symm) (hP.2.trans hq2.symm))
      rw [setCell_at hP] at h0 heq
      rw [setCell_other hQ] at heq
      refine hnp ⟨Q.1, Q.2, ⟨hQ, Or.inr (Or.inr ⟨?_, ?_⟩)⟩, heq.symm⟩
      · rw [← hb1, hP.1]
      · rw [← hb2, hP.2]
    · by_cases hQ : Q.1 = x ∧ Q.2 = y
      · rw [setCell_other hP] at h0 heq
        rw [setCell_at hQ] at heq
        refine hnp ⟨P.1, P.2, ⟨hP, Or.inr (Or.inr ⟨?_, ?_⟩)⟩, heq⟩
        · rw [hb1, hQ.1]
        · rw [hb2, hQ.2]
      · rw [setCell_other hP] at h0 heq
        rw [setCell_other hQ] at heq
        exact hbox ⟨P, Q, hne, hb1, hb2, h0, heq⟩

/-- b agrees with g wherever b is non-zero (g extends the partial board b). -/
def agreesNonzero (b g : Board) : Prop := ∀ x y, b x y ≠ 0 → g x y = b x y

theorem agreesNonzero_refl (b : Board) : agreesNonzero b b := fun _ _ _ => rfl

theorem agreesNonzero_trans {a b c : Board} (h1 : agreesNonzero a b)
    (h2 : agreesNonzero b c) : agreesNonzero a c := by
  intro x y h0
  have e1 := h1 x y h0
  have e2 := h2 x y (by rw [e1]; exact h0)
  rw [e2, e1]

theorem agreesNonzero_setCell {b : Board} {x y : Fin 9} {v : Nat} (h0 : b x y = 0) :
    agreesNonzero b (setCell b x y v) := by
  intro i j hij
  by_cases h : i = x ∧ j = y
  · obtain ⟨rfl, rfl⟩ := h
    exact absurd h0 hij
  · rw [setCell_other h]

/-- A partial board below a repeat-free grid passes is_valid: any repeat in
a row or box of b would appear verbatim in g. -/
theorem is_valid_of_agrees {b g : Board} (hsub : agreesNonzero b g)
    (hg : ¬groupRepeat g) : is_valid b = true := by
  rw [is_valid_iff]
  constructor
  · rintro ⟨x, j, j2, hne, h0, heq⟩
    have h02 : b x j2 ≠ 0 := by rw [← heq]; exact h0
    have e1 := hsub x j h0
    have e2 := hsub x j2 h02
    exact hg (Or.inl ⟨x, j, j2, hne, by rw [e1]; exact h0, by rw [e1, e2]; exact heq⟩)
  · rintro ⟨P, Q, hne, hb1, hb2, h0, heq⟩
    have h02 : b Q.1 Q.2 ≠ 0 := by rw [← heq]; exact h0
    have e1 := hsub P.1 P.2 h0
    have e2 := hsub Q.1 Q.2 h02
    exact hg (Or.inr (Or.inr ⟨P, Q, hne, hb1, hb2,
      by rw [e1]; exact h0, by rw [e1, e2]; exact heq⟩))

/-- g is a valid completion of b in the specification's sense: it agrees
with b on every filled cell, every cell holds a digit 1..9, and no row,
column, or box repeats a value. -/
def validCompletion (b g : Board) : Prop :=
  agreesNonzero b g ∧ (∀ x y, 1 ≤ g x y ∧ g x y ≤ 9) ∧ ¬groupRepeat g

instance (b g : Board) : Decidable (validCompletion b g) := by
  unfold validCompletion agreesNonzero
  infer_instance

/-- If b has valid completion g, then at any empty cell the value g holds
there is among find_all_possible. -/
theorem completion_mem_possible {b g : Board} (hc : validCompletion b g)
    {x y : Fin 9} (hxy : b x y = 0) : g x y ∈ find_all_possible b x y := by
  obtain ⟨hsub, hrange, hrep⟩ := hc
  rw [find_all_possible_iff]
  refine ⟨hrange x y, ?_⟩
  rintro ⟨i, j, ⟨hne, hgr⟩, hbv⟩
  have h0 : b i j ≠ 0 := by
    rw [hbv]
    have := (hrange x y).1
    omega
  have hgij : g i j = g x y := by rw [hsub i j h0, hbv]
  have hxy0 : g x y ≠ 0 := by
    have := (hrange x y).1
    omega
  apply hrep
  rcases hgr with rfl | rfl | hb
  · exact Or.inl ⟨i, y, j, fun hh => hne ⟨rfl, hh.symm⟩, hxy0, hgij.symm⟩
  · exact Or.inr (Or.inl ⟨j, x, i, fun hh => hne ⟨hh.symm, rfl⟩, hxy0, hgij.symm⟩)
  · refine Or.inr (Or.inr ⟨(x, y), (i, j), ?_, hb.1.symm, hb.2.symm, hxy0, hgij.symm⟩)
    intro hh
    rw [Prod.ext_iff] at hh
    exact hne ⟨hh.1.symm, hh.2.symm⟩

/-- Writing g's own value into a cell keeps g a valid completion. -/
theorem validCompletion_setCell {b g : Board} (hc : validCompletion b g) (x y : Fin 9) :
    validCompletion (setCell b x y (g x y)) g := by
  obtain ⟨hsub, hrange, hrep⟩ := hc
  refine ⟨?_, hrange, hrep⟩
  intro i j h0
  by_cases h : i = x ∧ j = y
  · obtain ⟨rfl, rfl⟩ := h
    rw [setCell_self]
  · rw [setCell_other h] at h0 ⊢
    exact hsub i j h0

/-- A singles loop that runs to completion ends on a board passing is_valid
(the check performed right after the last assignment). -/
theorem runSingles_ok_valid : ∀ (ss : List ((Fin 9 × Fin 9) × List Nat)) (b : Board),
    ss ≠ [] → (runSingles b ss).2 = true → is_valid (runSingles b ss).1 = true
  | [], _ => fun h => absurd rfl h
  | (c, ps) :: rest, b => by
    intro _ hok
    simp only [runSingles] at hok ⊢
    by_cases hva : is_valid (setCell b c.1 c.2 (ps.headD 0)) = true
    · rw [if_pos hva] at hok ⊢
      cases rest with
      | nil => simpa [runSingles] using hva
      | cons e2 r2 => exact runSingles_ok_valid _ _ (by simp) hok
    · rw [if_neg hva] at hok
      simp at hok

/-- The singles loop only writes to cells that were empty at scan time, so
every cell filled in the original board keeps its value. -/
theorem runSingles_agrees : ∀ (ss : List ((Fin 9 × Fin 9) × List Nat)) (b0 b : Board),
    agreesNonzero b0 b → (∀ e ∈ ss, b0 e.1.1 e.1.2 = 0) →
    agreesNonzero b0 (runSingles b ss).1
  | [], _, _ => fun h _ => h
  | (c, ps) :: rest, b0, b => by
    intro hagr hz
    have hc0 : b0 c.1 c.2 = 0 := hz _ (List.mem_cons_self _ _)
    have hagr2 : agreesNonzero b0 (setCell b c.1 c.2 (ps.headD 0)) := by
      intro i j h0
      by_cases h : i = c.1 ∧ j = c.2
      · obtain ⟨rfl, rfl⟩ := h
        exact absurd hc0 h0
      · rw [setCell_other h]
        exact hagr i j h0
    simp only [runSingles]
    split
    · exact runSingles_agrees rest b0 _ hagr2 fun e he => hz e (List.mem_cons_of_mem _ he)
    · exact hagr2

/-- When every single's forced value is the value of a fixed valid completion
g, the singles loop runs to completion and g remains a valid completion. -/
theorem runSingles_completion {g : Board} :
    ∀ (ss : List ((Fin 9 × Fin 9) × List Nat)) (b : Board),
      validCompletion b g → (∀ e ∈ ss, e.2.headD 0 = g e.1.1 e.1.2) →
      (runSingles b ss).2 = true ∧ validCompletion (runSingles b ss).1 g
  | [], b => fun hc _ => ⟨rfl, hc⟩
  | (c, ps) :: rest, b => by
    intro hc hh
    have hv : ps.headD 0 = g c.1 c.2 := hh _ (List.mem_cons_self _ _)
    have hc2 : validCompletion (setCell b c.1 c.2 (ps.headD 0)) g := by
      rw [hv]
      exact validCompletion_setCell hc c.1 c.2
    have hvb : is_valid (setCell b c.1 c.2 (ps.headD 0)) = true :=
      is_valid_of_agrees hc2.1 hc.2.2
    simp only [runSingles]
    rw [if_pos hvb]
    exact runSingles_completion rest _ hc2 fun e he => hh e (List.mem_cons_of_mem _ he)

/-- For a board with valid completion g, each single of the scan is forced
to g's value there. -/
theorem singlesOf_headD_eq {b g : Board} (hc : validCompletion b g)
    {e : (Fin 9 × Fin 9) × List Nat} (he : e ∈ singlesOf b) :
    e.2.headD 0 = g e.1.1 e.1.2 := by
  rcases List.mem_filter.1 he with ⟨hm, hlen⟩
  have hlen1 : e.2.length = 1 := of_decide_eq_true hlen
  have h0 := (mem_scanBoard.1 hm).1
  have hfap := (mem_scanBoard.1 hm).2
  have hg : g e.1.1 e.1.2 ∈ e.2 := by
    rw [hfap]
    exact completion_mem_possible hc h0
  cases h2 : e.2 with
  | nil =>
    rw [h2] at hlen1
    simp at hlen1
  | cons w ws =>
    rw [h2] at hlen1 hg
    have hws : ws = [] := by
      cases ws with
      | nil => rfl
      | cons a l => simp at hlen1
    subst hws
    simp only [List.mem_singleton] at hg
    rw [List.headD_cons, ← hg]

theorem tryCands_nil {b : Board} {c : Fin 9 × Fin 9} {hc : b c.1 c.2 = 0}
    {hp : ∀ v ∈ ([] : List Nat), 1 ≤ v} : tryCands b c hc [] hp = none := by
  rw [tryCands]

theorem tryCands_cons {b : Board} {c : Fin 9 × Fin 9} {hc : b c.1 c.2 = 0} {i : Nat}
    {rest : List Nat} {hp : ∀ v ∈ i :: rest, 1 ≤ v} :
    tryCands b c hc (i :: rest) hp =
      match solveS (setCell b c.1 c.2 i) with
      | (some g, _) => some g
      | (none, _) => tryCands b c hc rest fun v hv => hp v (List.mem_cons_of_mem i hv) := by
  rw [tryCands]

/-- If the candidate loop produced a solution, some candidate's recursive
call produced it. -/
theorem tryCands_some {b : Board} {c : Fin 9 × Fin 9} {hc : b c.1 c.2 = 0} :
    ∀ {ps : List Nat} {hp : ∀ v ∈ ps, 1 ≤ v} {g : Board},
      tryCands b c hc ps hp = some g →
      ∃ i ∈ ps, (solveS (setCell b c.1 c.2 i)).1 = some g
  | [], hp, g => by
    rw [tryCands_nil]
    intro h
    exact absurd h (by simp)
  | i :: rest, hp, g => by
    rw [tryCands_cons]
    rcases hres : solveS (setCell b c.1 c.2 i) with ⟨r, b2⟩
    cases r with
    | some g2 =>
      intro h
      simp only at h
      refine ⟨i, List.mem_cons_self _ _, ?_⟩
      rw [hres]
      exact congrArg some (Option.some.inj h)
    | none =>
      intro h
      simp only at h
      obtain ⟨w, hw, hsw⟩ := tryCands_some h
      exact ⟨w, List.mem_cons_of_mem _ hw, hsw⟩

/-- If some candidate's recursive call yields a solution, the candidate loop
yields one. -/
theorem tryCands_isSome {b : Board} {c : Fin 9 × Fin 9} {hc : b c.1 c.2 = 0} :
    ∀ {ps : List Nat} {hp : ∀ v ∈ ps, 1 ≤ v},
      (∃ i ∈ ps, ((solveS (setCell b c.1 c.2 i)).1).isSome = true) →
      (tryCands b c hc ps hp).isSome = true
  | [], hp => by
    rintro ⟨i, hi, _⟩
    exact absurd hi (List.not_mem_nil i)
  | i :: rest, hp => by
    rintro ⟨w, hw, hsw⟩
    rw [tryCands_cons]
    rcases hres : solveS (setCell b c.1 c.2 i) with ⟨r, b2⟩
    cases r with
    | some g2 => simp
    | none =>
      simp only
      apply tryCands_isSome
      rcases List.mem_cons.1 hw with rfl | hw2
      · rw [hres] at hsw
        simp at hsw
      · exact ⟨w, hw2, hsw⟩

theorem solveS_deadend {b : Board}
    (h : (scanBoard b).any (fun e => e.2.isEmpty) = true) : solveS b = (none, b) := by
  rw [solveS.eq_def, if_pos h]

theorem solveS_complete {b : Board}
    (h1 : (scanBoard b).any (fun e => e.2.isEmpty) = false) (h2 : scanBoard b = []) :
    solveS b = (some b, b) := by
  rw [solveS.eq_def, if_neg (by rw [h1]; exact Bool.false_ne_true), dif_pos h2]

theorem solveS_branch {b : Board}
    (h1 : (scanBoard b).any (fun e => e.2.isEmpty) = false) (h2 : scanBoard b ≠ [])
    (h3 : singlesOf b = []) :
    solveS b = (tryCands b ((scanBoard b).head h2).1 (scan_head_cell_empty h2)
      ((scanBoard b).head h2).2 (scan_head_pos h2), b) := by
  rw [solveS.eq_def, if_neg (by rw [h1]; exact Bool.false_ne_true), dif_neg h2, dif_pos h3]

theorem solveS_singles_ok {b : Board}
    (h1 : (scanBoard b).any (fun e => e.2.isEmpty) = false) (h2 : scanBoard b ≠ [])
    (h3 : singlesOf b ≠ []) (h4 : (runSingles b (singlesOf b)).2 = true) :
    solveS b = solveS (runSingles b (singlesOf b)).1 := by
  conv_lhs => rw [solveS.eq_def]
  rw [if_neg (by rw [h1]; exact Bool.false_ne_true), dif_neg h2, dif_neg h3, if_pos h4]

theorem solveS_singles_fail {b : Board}
    (h1 : (scanBoard b).any (fun e => e.2.isEmpty) = false) (h2 : scanBoard b ≠ [])
    (h3 : singlesOf b ≠ []) (h4 : (runSingles b (singlesOf b)).2 = false) :
    solveS b = (none, (runSingles b (singlesOf b)).1) := by
  rw [solveS.eq_def, if_neg (by rw [h1]; exact Bool.false_ne_true), dif_neg h2, dif_neg h3,
    if_neg (by rw [h4]; exact Bool.false_ne_true)]

/-- Soundness induction: any grid solve returns is completely filled, and it
passes is_valid whenever the input board did. -/
theorem solveS_sound : ∀ (n : Nat) (b : Board), numEmpty b ≤ n →
    ∀ g : Board, (solveS b).1 = some g →
      (∀ x y, g x y ≠ 0) ∧ (is_valid b = true → is_valid g = true) := by
  intro n
  induction n using Nat.strong_induction_on with
  | _ n ih =>
    intro b hn g hg
    by_cases h1 : (scanBoard b).any (fun e => e.2.isEmpty) = true
    · rw [solveS_deadend h1] at hg
      exact absurd hg (by simp)
    · have h1f : (scanBoard b).any (fun e => e.2.isEmpty) = false :=
        Bool.not_eq_true _ ▸ Bool.of_not_eq_true h1
      by_cases h2 : scanBoard b = []
      · rw [solveS_complete h1f h2] at hg
        have hbg : b = g := Option.some.inj hg
        subst hbg
        exact ⟨scanBoard_eq_nil.1 h2, fun h => h⟩
      · by_cases h3 : singlesOf b = []
        · rw [solveS_branch h1f h2 h3] at hg
          obtain ⟨i, hi, hsi⟩ := tryCands_some hg
          have hfap := (mem_scanBoard.1 (List.head_mem h2)).2
          have hemp := scan_head_cell_empty h2
          have hipos := scan_head_pos h2 i hi
          have hlt : numEmpty (setCell b ((scanBoard b).head h2).1.1
              ((scanBoard b).head h2).1.2 i) < numEmpty b :=
            numEmpty_setCell_lt hemp (by omega)
          have hrec := ih _ (lt_of_lt_of_le hlt hn) _ le_rfl g hsi
          refine ⟨hrec.1, fun hbv => hrec.2 ?_⟩
          exact is_valid_setCell hbv (by rw [← hfap]; exact hi)
        · by_cases h4 : (runSingles b (singlesOf b)).2 = true
          · rw [solveS_singles_ok h1f h2 h3 h4] at hg
            have hlt := runSingles_numEmpty_lt h3
              (fun e he => singlesOf_headD_ne he) (fun e he => singlesOf_cell_empty he)
            have hrec := ih _ (lt_of_lt_of_le hlt hn) _ le_rfl g hg
            have hvr := runSingles_ok_valid _ _ h3 h4
            exact ⟨hrec.1, fun _ => hrec.2 hvr⟩
          · have h4f : (runSingles b (singlesOf b)).2 = false :=
              Bool.not_eq_true _ ▸ Bool.of_not_eq_true h4
            rw [solveS_singles_fail h1f h2 h3 h4f] at hg
            exact absurd hg (by simp)

/-- Completeness induction: a board with a valid completion is never
reported unsolvable. -/
theorem solveS_complete_of_completion : ∀ (n : Nat) (b : Board), numEmpty b ≤ n →
    ∀ g : Board, validCompletion b g → ((solveS b).1).isSome = true := by
  intro n
  induction n using Nat.strong_induction_on with
  | _ n ih =>
    intro b hn g hc
    have h1f : (scanBoard b).any (fun e => e.2.isEmpty) = false := by
      rw [List.any_eq_false]
      intro e he
      have h0 := (mem_scanBoard.1 he).1
      have hfap := (mem_scanBoard.1 he).2
      have hmem : g e.1.1 e.1.2 ∈ e.2 := by
        rw [hfap]
        exact completion_mem_possible hc h0
      simp only [List.isEmpty_iff, Bool.not_eq_true]
      intro hnil
      rw [hnil] at hmem
      exact List.not_mem_nil _ hmem
    by_cases h2 : scanBoard b = []
    · rw [solveS_complete h1f h2]
      rfl
    · by_cases h3 : singlesOf b = []
      · rw [solveS_branch h1f h2 h3]
        apply tryCands_isSome
        refine ⟨g ((scanBoard b).head h2).1.1 ((scanBoard b).head h2).1.2, ?_, ?_⟩
        · rw [(mem_scanBoard.1 (List.head_mem h2)).2]
          exact completion_mem_possible hc (scan_head_cell_empty h2)
        · have hcc := validCompletion_setCell hc
            ((scanBoard b).head h2).1.1 ((scanBoard b).head h2).1.2
          have hgpos := (hc.2.1 ((scanBoard b).head h2).1.1 ((scanBoard b).head h2).1.2).1
          have hlt : numEmpty (setCell b ((scanBoard b).head h2).1.1
              ((scanBoard b).head h2).1.2
              (g ((scanBoard b).head h2).1.1 ((scanBoard b).head h2).1.2)) < numEmpty b :=
            numEmpty_setCell_lt (scan_head_cell_empty h2) (by omega)
          exact ih _ (lt_of_lt_of_le hlt hn) _ le_rfl g hcc
      · have hrun := runSingles_completion (singlesOf b) b hc
          (fun e he => singlesOf_headD_eq hc he)
        rw [solveS_singles_ok h1f h2 h3 hrun.1]
        have hlt := runSingles_numEmpty_lt h3
          (fun e he => singlesOf_headD_ne he) (fun e he => singlesOf_cell_empty he)
        exact ih _ (lt_of_lt_of_le hlt hn) _ le_rfl g hrun.2

/-- Frame induction: solve only ever writes into empty cells, both on the
caller's own board object and in any solution it returns. -/
theorem solveS_agrees : ∀ (n : Nat) (b : Board), numEmpty b ≤ n →
    agreesNonzero b (solveS b).2 ∧
      ∀ g : Board, (solveS b).1 = some g → agreesNonzero b g := by
  intro n
  induction n using Nat.strong_induction_on with
  | _ n ih =>
    intro b hn
    by_cases h1 : (scanBoard b).any (fun e => e.2.isEmpty) = true
    · rw [solveS_deadend h1]
      exact ⟨agreesNonzero_refl b, fun g hg => absurd hg (by simp)⟩
    · have h1f : (scanBoard b).any (fun e => e.2.isEmpty) = false :=
        Bool.not_eq_true _ ▸ Bool.of_not_eq_true h1
      by_cases h2 : scanBoard b = []
      · rw [solveS_complete h1f h2]
        refine ⟨agreesNonzero_refl b, fun g hg => ?_⟩
        have hbg : b = g := Option.some.inj hg
        subst hbg
        exact agreesNonzero_refl b
      · by_cases h3 : singlesOf b = []
        · rw [solveS_branch h1f h2 h3]
          refine ⟨agreesNonzero_refl b, fun g hg => ?_⟩
          obtain ⟨i, hi, hsi⟩ := tryCands_some hg
          have hemp := scan_head_cell_empty h2
          have hipos := scan_head_pos h2 i hi
          have hlt : numEmpty (setCell b ((scanBoard b).head h2).1.1
              ((scanBoard b).head h2).1.2 i) < numEmpty b :=
            numEmpty_setCell_lt hemp (by omega)
          have hrec := (ih _ (lt_of_lt_of_le hlt hn) _ le_rfl).2 g hsi
          exact agreesNonzero_trans (agreesNonzero_setCell hemp) hrec
        · have hagr : agreesNonzero b (runSingles b (singlesOf b)).1 :=
            runSingles_agrees _ b b (agreesNonzero_refl b)
              (fun e he => singlesOf_cell_empty he)
          by_cases h4 : (runSingles b (singlesOf b)).2 = true
          · rw [solveS_singles_ok h1f h2 h3 h4]
            have hlt := runSingles_numEmpty_lt h3
              (fun e he => singlesOf_headD_ne he) (fun e he => singlesOf_cell_empty he)
            have hrec := ih _ (lt_of_lt_of_le hlt hn) _ le_rfl
            exact ⟨agreesNonzero_trans hagr hrec.1,
              fun g hg => agreesNonzero_trans hagr (hrec.2 g hg)⟩
          · have h4f : (runSingles b (singlesOf b)).2 = false :=
              Bool.not_eq_true _ ▸ Bool.of_not_eq_true h4
            rw [solveS_singles_fail h1f h2 h3 h4f]
            exact ⟨hagr, fun g hg => absurd hg (by simp)⟩

mutual

/-- solveS with an explicit recursion-depth budget: each recursive call of
the branching search consumes one unit of fuel, and a recursive call
attempted with no fuel left yields none (budget exceeded).  The propagation
loop is a while-loop in the source, not recursion, so it consumes no fuel. -/
def fuelS (f : Nat) (b : Board) : Option (Option Board × Board) :=
  if (scanBoard b).any (fun e => e.2.isEmpty) then some (none, b)
  else if h2 : scanBoard b = [] then some (some b, b)
  else if h3 : singlesOf b = [] then
    match tryCandsF f b ((scanBoard b).head h2).1 (scan_head_cell_empty h2)
        ((scanBoard b).head h2).2 (scan_head_pos h2) with
    | none => none
    | some r => some (r, b)
  else if (runSingles b (singlesOf b)).2 then fuelS f (runSingles b (singlesOf b)).1
  else some (none, (runSingles b (singlesOf b)).1)
termination_by (numEmpty b, 100)
decreasing_by
  · exact Prod.Lex.right _ (lt_of_le_of_lt (scan_head_len h2) (by omega))
  · exact Prod.Lex.left _ _ (runSingles_numEmpty_lt h3
      (fun e he => singlesOf_headD_ne he) (fun e he => singlesOf_cell_empty he))

/-- The candidate loop with the recursion-depth budget made explicit. -/
def tryCandsF (f : Nat) (b : Board) (c : Fin 9 × Fin 9) (hc : b c.1 c.2 = 0) :
    (ps : List Nat) → (∀ v ∈ ps, 1 ≤ v) → Option (Option Board)
  | [], _ => some none
  | i :: rest, hp =>
    match f with
    | 0 => none
    | f2 + 1 =>
      match fuelS f2 (setCell b c.1 c.2 i) with
      | none => none
      | some (some g, _) => some (some g)
      | some (none, _) =>
        tryCandsF f b c hc rest fun v hv => hp v (List.mem_cons_of_mem i hv)
termination_by ps _ => (numEmpty b, ps.length)
decreasing_by
  · exact Prod.Lex.left _ _ (numEmpty_setCell_lt hc
      (by have := hp i (List.mem_cons_self i rest); omega))
  · exact Prod.Lex.right _ (Nat.lt_succ_self _)

end

theorem numEmpty_pos {b : Board} {x y : Fin 9} (h : b x y = 0) : 1 ≤ numEmpty b := by
  unfold numEmpty
  exact Finset.card_pos.2 ⟨(x, y), by simp [h]⟩

theorem tryCandsF_nil {f : Nat} {b : Board} {c : Fin 9 × Fin 9} {hc : b c.1 c.2 = 0}
    {hp : ∀ v ∈ ([] : List Nat), 1 ≤ v} : tryCandsF f b c hc [] hp = some none := by
  rw [tryCandsF]

theorem tryCandsF_succ {f2 : Nat} {b : Board} {c : Fin 9 × Fin 9} {hc : b c.1 c.2 = 0}
    {i : Nat} {rest : List Nat} {hp : ∀ v ∈ i :: rest, 1 ≤ v} :
    tryCandsF (f2 + 1) b c hc (i :: rest) hp =
      match fuelS f2 (setCell b c.1 c.2 i) with
      | none => none
      | some (some g, _) => some (some g)
      | some (none, _) =>
        tryCandsF (f2 + 1) b c hc rest fun v hv => hp v (List.mem_cons_of_mem i hv) := by
  rw [tryCandsF]

theorem fuelS_deadend {f : Nat} {b : Board}
    (h : (scanBoard b).any (fun e => e.2.isEmpty) = true) : fuelS f b = some (none, b) := by
  rw [fuelS.eq_def, if_pos h]

theorem fuelS_complete {f : Nat} {b : Board}
    (h1 : (scanBoard b).any (fun e => e.2.isEmpty) = false) (h2 : scanBoard b = []) :
    fuelS f b = some (some b, b) := by
  rw [fuelS.eq_def, if_neg (by rw [h1]; exact Bool.false_ne_true), dif_pos h2]

theorem fuelS_branch {f : Nat} {b : Board}
    (h1 : (scanBoard b).any (fun e => e.2.isEmpty) = false) (h2 : scanBoard b ≠ [])
    (h3 : singlesOf b = []) :
    fuelS f b =
      match tryCandsF f b ((scanBoard b).head h2).1 (scan_head_cell_empty h2)
          ((scanBoard b).head h2).2 (scan_head_pos h2) with
      | none => none
      | some r => some (r, b) := by
  rw [fuelS.eq_def, if_neg (by rw [h1]; exact Bool.false_ne_true), dif_neg h2, dif_pos h3]

theorem fuelS_singles_ok {f : Nat} {b : Board}
    (h1 : (scanBoard b).any (fun e => e.2.isEmpty) = false) (h2 : scanBoard b ≠ [])
    (h3 : singlesOf b ≠ []) (h4 : (runSingles b (singlesOf b)).2 = true) :
    fuelS f b = fuelS f (runSingles b (singlesOf b)).1 := by
  conv_lhs => rw [fuelS.eq_def]
  rw [if_neg (by rw [h1]; exact Bool.false_ne_true), dif_neg h2, dif_neg h3, if_pos h4]

theorem fuelS_singles_fail {f : Nat} {b : Board}
    (h1 : (scanBoard b).any (fun e => e.2.isEmpty) = false) (h2 : scanBoard b ≠ [])
    (h3 : singlesOf b ≠ []) (h4 : (runSingles b (singlesOf b)).2 = false) :
    fuelS f b = some (none, (runSingles b (singlesOf b)).1) := by
  rw [fuelS.eq_def, if_neg (by rw [h1]; exact Bool.false_ne_true), dif_neg h2, dif_neg h3,
    if_neg (by rw [h4]; exact Bool.false_ne_true)]

/-- When every candidate's recursive call agrees with the unbounded solver,
the budgeted candidate loop agrees with the unbounded one. -/
theorem tryCandsF_eq {b : Board} {c : Fin 9 × Fin 9} {hc : b c.1 c.2 = 0} {f2 : Nat} :
    ∀ {ps : List Nat} {hp : ∀ v ∈ ps, 1 ≤ v},
      (∀ i ∈ ps, fuelS f2 (setCell b c.1 c.2 i) = some (solveS (setCell b c.1 c.2 i))) →
      tryCandsF (f2 + 1) b c hc ps hp = some (tryCands b c hc ps hp)
  | [], hp, _ => by rw [tryCandsF_nil, tryCands_nil]
  | i :: rest, hp, hrec => by
    rw [tryCands_cons, tryCandsF_succ, hrec i (List.mem_cons_self _ _)]
    rcases hres : solveS (setCell b c.1 c.2 i) with ⟨r, b2⟩
    cases r with
    | some g => rfl
    | none =>
      simp only
      exact tryCandsF_eq fun w hw => hrec w (List.mem_cons_of_mem _ hw)

/-- Fuel equal to the number of empty cells always suffices: the recursion
depth of solve is bounded by the number of empty cells of its input. -/
theorem fuelS_eq_solveS : ∀ (n : Nat) (b : Board), numEmpty b ≤ n →
    ∀ f : Nat, numEmpty b ≤ f → fuelS f b = some (solveS b) := by
  intro n
  induction n using Nat.strong_induction_on with
  | _ n ih =>
    intro b hn f hf
    by_cases h1 : (scanBoard b).any (fun e => e.2.isEmpty) = true
    · rw [fuelS_deadend h1, solveS_deadend h1]
    · have h1f : (scanBoard b).any (fun e => e.2.isEmpty) = false :=
        Bool.not_eq_true _ ▸ Bool.of_not_eq_true h1
      by_cases h2 : scanBoard b = []
      · rw [fuelS_complete h1f h2, solveS_complete h1f h2]
      · by_cases h3 : singlesOf b = []
        · rw [fuelS_branch h1f h2 h3, solveS_branch h1f h2 h3]
          have hemp := scan_head_cell_empty h2
          have hpos := scan_head_pos h2
          have hf1 : 1 ≤ f := le_trans (numEmpty_pos hemp) hf
          obtain ⟨f2, rfl⟩ : ∃ f2, f = f2 + 1 := ⟨f - 1, by omega⟩
          rw [tryCandsF_eq ?_]
          · intro i hi
            have hipos := hpos i hi
            have hlt : numEmpty (setCell b ((scanBoard b).head h2).1.1
                ((scanBoard b).head h2).1.2 i) < numEmpty b :=
              numEmpty_setCell_lt hemp (by omega)
            exact ih _ (lt_of_lt_of_le hlt hn) _ le_rfl f2 (by omega)
        · by_cases h4 : (runSingles b (singlesOf b)).2 = true
          · rw [fuelS_singles_ok h1f h2 h3 h4, solveS_singles_ok h1f h2 h3 h4]
            have hlt := runSingles_numEmpty_lt h3
              (fun e he => singlesOf_headD_ne he) (fun e he => singlesOf_cell_empty he)
            exact ih _ (lt_of_lt_of_le hlt hn) _ le_rfl f (by omega)
          · have h4f : (runSingles b (singlesOf b)).2 = false :=
              Bool.not_eq_true _ ▸ Bool.of_not_eq_true h4
            rw [fuelS_singles_fail h1f h2 h3 h4f, solveS_singles_fail h1f h2 h3 h4f]

/-- All assignments of a singles list applied unconditionally, in order. -/
def applySingles (b : Board) (ss : List ((Fin 9 × Fin 9) × List Nat)) : Board :=
  ss.foldl (fun bb e => setCell bb e.1.1 e.1.2 (e.2.headD 0)) b

/-- The singles loop either runs all its assignments, or stops right after
the first assignment whose consistency check fails, leaving later singles
unassigned. -/
theorem runSingles_split : ∀ (ss : List ((Fin 9 × Fin 9) × List Nat)) (b : Board),
    ((runSingles b ss).2 = true → (runSingles b ss).1 = applySingles b ss) ∧
    ((runSingles b ss).2 = false → ∃ done e rest, ss = done ++ e :: rest ∧
      (runSingles b ss).1 = applySingles b (done ++ [e]) ∧
      is_valid (applySingles b (done ++ [e])) = false)
  | [], b => ⟨fun _ => rfl, fun h => absurd h (by simp [runSingles])⟩
  | (c, ps) :: rest, b => by
    constructor
    · intro hok
      simp only [runSingles] at hok ⊢
      by_cases hv : is_valid (setCell b c.1 c.2 (ps.headD 0)) = true
      · rw [if_pos hv] at hok ⊢
        exact (runSingles_split rest _).1 hok
      · rw [if_neg hv] at hok
        simp at hok
    · intro hfail
      simp only [runSingles] at hfail ⊢
      by_cases hv : is_valid (setCell b c.1 c.2 (ps.headD 0)) = true
      · rw [if_pos hv] at hfail ⊢
        obtain ⟨done, e, rest2, heq, hres, hval⟩ := (runSingles_split rest _).2 hfail
        exact ⟨(c, ps) :: done, e, rest2, by rw [heq]; rfl, hres, hval⟩
      · rw [if_neg hv] at hfail ⊢
        refine ⟨[], (c, ps), rest, rfl, rfl, ?_⟩
        exact Bool.not_eq_true _ ▸ Bool.of_not_eq_true hv

/-- Board built from a 9-row list of 9-entry rows (cells read out of range
are 0; all concrete boards below are full 9 x 9 lists). -/
def boardOfRows (rows : List (List Nat)) : Board :=
  fun x y => (rows.getD x.val []).getD y.val 0

/-- A completely filled, consistent sudoku grid. -/
def fullGrid : Board := fun x y => (x.val * 3 + x.val / 3 + y.val) % 9 + 1

/-- The board with every cell 1: completely filled and inconsistent. -/
def allOnes : Board := fun _ _ => 1

/-- The board with every cell 2: completely filled and inconsistent. -/
def allTwos : Board := fun _ _ => 2

/-- The board with every cell empty. -/
def zeroBoard : Board := fun _ _ => 0

/-- Empty board except for the value 5 at cells (0,0) and (3,0): a duplicate
confined to column 0 (different rows, different boxes). -/
def colDupBoard : Board := boardOfRows
  [[5, 0, 0, 0, 0, 0, 0, 0, 0],
   [0, 0, 0, 0, 0, 0, 0, 0, 0],
   [0, 0, 0, 0, 0, 0, 0, 0, 0],
   [5, 0, 0, 0, 0, 0, 0, 0, 0],
   [0, 0, 0, 0, 0, 0, 0, 0, 0],
   [0, 0, 0, 0, 0, 0, 0, 0, 0],
   [0, 0, 0, 0, 0, 0, 0, 0, 0],
   [0, 0, 0, 0, 0, 0, 0, 0, 0],
   [0, 0, 0, 0, 0, 0, 0, 0, 0]]

/-- A board whose first scan finds exactly the singles (0,0), (0,1) and
(8,8), the first two both forced to 1 in the same row. -/
def b6 : Board := boardOfRows
  [[0, 0, 3, 4, 5, 6, 7, 8, 9],
   [0, 0, 0, 0, 0, 0, 0, 0, 0],
   [0, 0, 0, 0, 0, 0, 0, 0, 0],
   [2, 0, 0, 0, 0, 0, 0, 0, 0],
   [0, 0, 0, 0, 0, 0, 0, 0, 0],
   [0, 0, 0, 0, 0, 0, 0, 0, 0],
   [0, 2, 0, 0, 0, 0, 0, 0, 0],
   [0, 0, 0, 0, 0, 0, 0, 0, 0],
   [9, 8, 7, 6, 5, 4, 3, 2, 0]]

/-- A board whose first scan finds the singles (0,0) and (0,1), both forced
to 1 in the same row: propagation assigns both, the check after the second
assignment fails, and solve returns the no-solution signal with the
caller's board mutated. -/
def b10 : Board := boardOfRows
  [[0, 0, 3, 4, 5, 6, 7, 8, 9],
   [0, 0, 0, 0, 0, 0, 0, 0, 0],
   [0, 0, 0, 0, 0, 0, 0, 0, 0],
   [2, 0, 0, 0, 0, 0, 0, 0, 0],
   [0, 0, 0, 0, 0, 0, 0, 0, 0],
   [0, 0, 0, 0, 0, 0, 0, 0, 0],
   [0, 2, 0, 0, 0, 0, 0, 0, 0],
   [0, 0, 0, 0, 0, 0, 0, 0, 0],
   [0, 0, 0, 0, 0, 0, 0, 0, 0]]

/-- The board of the repository's test_parse test. -/
def testBoard : Board := boardOfRows
  [[3, 1, 0, 0, 0, 0, 0, 0, 0],
   [0, 0, 0, 9, 5, 2, 6, 0, 0],
   [5, 9, 0, 0, 3, 0, 0, 0, 2],
   [0, 0, 0, 0, 8, 0, 9, 7, 5],
   [0, 0, 0, 2, 0, 1, 0, 0, 0],
   [9, 4, 8, 0, 6, 0, 0, 0, 0],
   [8, 0, 0, 0, 7, 0, 0, 6, 9],
   [0, 0, 9, 6, 2, 4, 0, 0, 0],
   [0, 0, 0, 0, 0, 0, 0, 3, 4]]

/-- A two-singles list on the empty board whose second assignment clashes
with the first. -/
def demoSingles : List ((Fin 9 × Fin 9) × List Nat) :=
  [(((0 : Fin 9), (0 : Fin 9)), [1]), (((0 : Fin 9), (1 : Fin 9)), [1])]

/-- Claim C1 as stated is false: on the all-twos board, which is completely
filled but inconsistent, solve returns the grid itself even though is_valid
is false on it (the completion check returns the board without any
consistency check). -/
theorem C1_counterexample :
    solve allTwos = some allTwos ∧ is_valid allTwos = false := by
  constructor
  · unfold solve
    rw [solveS_complete (by decide) (by decide)]
  · decide

/-- Claim C1 amended: every grid solve returns has all 81 cells non-zero;
and whenever the input board passes is_valid, the returned grid passes
is_valid as well. -/
theorem C1_theorem (b g : Board) (hg : solve b = some g) :
    (∀ x y, g x y ≠ 0) ∧ (is_valid b = true → is_valid g = true) :=
  solveS_sound (numEmpty b) b le_rfl g hg

theorem C1_witness :
    solve fullGrid = some fullGrid ∧ is_valid fullGrid = true ∧
      (∀ x y, fullGrid x y ≠ 0) ∧ is_valid fullGrid = true := by
  have hsolve : solve fullGrid = some fullGrid := by
    unfold solve
    rw [solveS_complete (by decide) (by decide)]
  have hval : is_valid fullGrid = true := by decide
  have h := C1_theorem fullGrid fullGrid hsolve
  exact ⟨hsolve, hval, h.1, h.2 hval⟩

/-- Claim C2 is right and the code is wrong: colDupBoard holds the value 5
twice in column 0 - a repeat in one of the 27 groups, so the claim requires
is_valid to be false - yet is_valid returns true, because its second loop
reads items[x][y] with x as the outer index and so rescans the rows instead
of scanning the columns. -/
theorem C2_theorem :
    is_valid colDupBoard = true ∧ colRepeat colDupBoard ∧ groupRepeat colDupBoard := by
  refine ⟨by decide, by decide, ?_⟩
  exact Or.inr (Or.inl (by decide))

/-- Claim C3 is right and the code is wrong: the all-ones board has no valid
completion (it is completely filled and inconsistent, so its only candidate
completion is itself), yet solve returns it as a solution instead of the
no-solution signal. -/
theorem C3_theorem :
    solve allOnes = some allOnes ∧ ¬∃ g : Board, validCompletion allOnes g := by
  constructor
  · unfold solve
    rw [solveS_complete (by decide) (by decide)]
  · rintro ⟨g, hsub, hrange, hrep⟩
    apply hrep
    refine Or.inl ⟨0, 0, 1, by decide, ?_, ?_⟩
    · rw [hsub 0 0 (by decide)]
      decide
    · rw [hsub 0 0 (by decide), hsub 0 1 (by decide)]
      decide

/-- Claim C4: a board admitting at least one valid completion is never
reported unsolvable - solve returns a grid. -/
theorem C4_theorem (b : Board) (h : ∃ g : Board, validCompletion b g) :
    (solve b).isSome = true := by
  obtain ⟨g, hg⟩ := h
  exact solveS_complete_of_completion (numEmpty b) b le_rfl g hg

set_option maxRecDepth 4000 in
theorem C4_witness :
    (∃ g : Board, validCompletion fullGrid g) ∧ (solve fullGrid).isSome = true := by
  have h : ∃ g : Board, validCompletion fullGrid g := ⟨fullGrid, by decide⟩
  exact ⟨h, C4_theorem fullGrid h⟩

/-- Claim C5: for an empty cell, find_all_possible yields exactly the
digits 1..9 minus the non-zero values among the cell's row, column, and box
peers (the three peer groups collapsed by union). -/
theorem C5_theorem (b : Board) (x y : Fin 9) (hxy : b x y = 0) (v : Nat) :
    v ∈ find_all_possible b x y ↔
      (1 ≤ v ∧ v ≤ 9) ∧ ¬∃ i j : Fin 9, isPeer x y i j ∧ b i j ≠ 0 ∧ b i j = v := by
  rw [find_all_possible_iff]
  constructor
  · rintro ⟨h19, hnp⟩
    exact ⟨h19, fun ⟨i, j, hp, _, hv⟩ => hnp ⟨i, j, hp, hv⟩⟩
  · rintro ⟨h19, hnp⟩
    refine ⟨h19, ?_⟩
    rintro ⟨i, j, hp, hv⟩
    exact hnp ⟨i, j, hp, by rw [hv]; omega, hv⟩

theorem C5_witness :
    testBoard 0 3 = 0 ∧ find_all_possible testBoard 0 3 = [4, 7, 8] ∧
      ((4 : Nat) ∈ find_all_possible testBoard 0 3 ↔
        (1 ≤ 4 ∧ 4 ≤ 9) ∧
          ¬∃ i j : Fin 9, isPeer 0 3 i j ∧ testBoard i j ≠ 0 ∧ testBoard i j = 4) :=
  ⟨by decide, by decide, C5_theorem testBoard 0 3 (by decide) 4⟩

/-- Claim C6 as stated is false: on board b6 the first scan's singles are
(0,0), (0,1) and (8,8) (all forced to 1); the first two are assigned, the
consistency check run immediately after the second assignment fails, and
solve returns the no-solution signal with the single (8,8) never assigned.
So it is not the case that every single of the pass is assigned before
consistency is checked. -/
theorem C6_counterexample :
    ((((8 : Fin 9), (8 : Fin 9)), [1]) ∈ singlesOf b6) ∧
      (solveS b6).1 = none ∧ (solveS b6).2 8 8 = 0 ∧ (solveS b6).2 0 0 = 1 := by
  have h : solveS b6 = (none, (runSingles b6 (singlesOf b6)).1) :=
    solveS_singles_fail (by decide) (by decide) (by decide) (by decide)
  rw [h]
  exact ⟨by decide, rfl, by decide, by decide⟩

/-- Claim C6 amended: in a propagation pass the singles are assigned one at
a time in scan order, and is_valid is checked right after each assignment;
only if every check passes are all singles of the pass assigned, and at the
first failing check solve stops, leaving the remaining singles unassigned,
and returns the no-solution signal for the branch. -/
theorem C6_theorem :
    (∀ (b : Board) (ss : List ((Fin 9 × Fin 9) × List Nat)),
      ((runSingles b ss).2 = true → (runSingles b ss).1 = applySingles b ss) ∧
      ((runSingles b ss).2 = false → ∃ done e rest, ss = done ++ e :: rest ∧
        (runSingles b ss).1 = applySingles b (done ++ [e]) ∧
        is_valid (applySingles b (done ++ [e])) = false)) ∧
    (∀ b : Board, (scanBoard b).any (fun e => e.2.isEmpty) = false →
      scanBoard b ≠ [] → singlesOf b ≠ [] → (runSingles b (singlesOf b)).2 = false →
      solveS b = (none, (runSingles b (singlesOf b)).1)) :=
  ⟨fun b ss => runSingles_split ss b,
    fun _ h1 h2 h3 h4 => solveS_singles_fail h1 h2 h3 h4⟩

theorem C6_witness :
    (runSingles zeroBoard demoSingles).2 = false ∧
      ∃ done e rest, demoSingles = done ++ e :: rest ∧
        (runSingles zeroBoard demoSingles).1 = applySingles zeroBoard (done ++ [e]) ∧
        is_valid (applySingles zeroBoard (done ++ [e])) = false := by
  have hf : (runSingles zeroBoard demoSingles).2 = false := by decide
  exact ⟨hf, (C6_theorem.1 zeroBoard demoSingles).2 hf⟩

/-- Claim C7: when solve reaches the branching search (a scan with no empty
possibility list and no singles), the caller's board object is left exactly
as it was, and each candidate is explored on its own copy setCell b c i
built from the unchanged b - a failed sibling leaves nothing behind. -/
theorem C7_theorem (b : Board)
    (h1 : (scanBoard b).any (fun e => e.2.isEmpty) = false)
    (h2 : scanBoard b ≠ []) (h3 : singlesOf b = []) :
    (solveS b).2 = b ∧
      ∀ (c : Fin 9 × Fin 9) (hc : b c.1 c.2 = 0) (i : Nat) (rest : List Nat)
        (hp : ∀ v ∈ i :: rest, 1 ≤ v),
        tryCands b c hc (i :: rest) hp =
          match solveS (setCell b c.1 c.2 i) with
          | (some g, _) => some g
          | (none, _) => tryCands b c hc rest fun v hv => hp v (List.mem_cons_of_mem i hv) := by
  constructor
  · rw [solveS_branch h1 h2 h3]
  · intro c hc i rest hp
    exact tryCands_cons

theorem C7_witness : (solveS zeroBoard).2 = zeroBoard :=
  (C7_theorem zeroBoard (by decide) (by decide) (by decide)).1

/-- Claim C8: solve is total on 9 x 9 boards (solveS is a total function in
this development), a board has at most 81 empty cells, and a recursion
budget equal to the number of empty cells always suffices: fuelS, which
charges one unit per recursive call of the branching search, reproduces
solveS exactly with fuel numEmpty b. -/
theorem C8_theorem (b : Board) :
    numEmpty b ≤ 81 ∧ fuelS (numEmpty b) b = some (solveS b) :=
  ⟨numEmpty_le_81 b, fuelS_eq_solveS (numEmpty b) b le_rfl (numEmpty b) le_rfl⟩

/-- Claim C9: solve writes only into cells that were empty, so both the
final state of the caller's board object and any returned solution agree
with the input board on every initially non-zero cell. -/
theorem C9_theorem (b : Board) :
    (∀ x y, b x y ≠ 0 → (solveS b).2 x y = b x y) ∧
      ∀ g, solve b = some g → ∀ x y, b x y ≠ 0 → g x y = b x y := by
  have h := solveS_agrees (numEmpty b) b le_rfl
  exact ⟨h.1, fun g hg => h.2 g hg⟩

theorem C9_witness :
    (solveS fullGrid).2 0 0 = fullGrid 0 0 ∧
      ∃ g, solve fullGrid = some g ∧ g 0 0 = fullGrid 0 0 := by
  have hsolve : solve fullGrid = some fullGrid := by
    unfold solve
    rw [solveS_complete (by decide) (by decide)]
  exact ⟨(C9_theorem fullGrid).1 0 0 (by decide), fullGrid, hsolve,
    (C9_theorem fullGrid).2 fullGrid hsolve 0 0 (by decide)⟩

/-- Claim C10: solve mutates the caller's board in place during forced-move
propagation and does not restore it on failure: on board b10 solve returns
the no-solution signal while cells (0,0) and (0,1) of the caller's board,
both empty on entry, now hold 1. -/
theorem C10_theorem :
    (solveS b10).1 = none ∧ b10 0 0 = 0 ∧ (solveS b10).2 0 0 = 1 ∧
      b10 0 1 = 0 ∧ (solveS b10).2 0 1 = 1 := by
  have h : solveS b10 = (none, (runSingles b10 (singlesOf b10)).1) :=
    solveS_singles_fail (by decide) (by decide) (by decide) (by decide)
  rw [h]
  exact ⟨rfl, by decide, by decide, by decide, by decide⟩

end Sudoku
